import Mathlib

/-!
Verification development for the srsRAN control-plane core:
a shallow embedding of the segmented byte buffer
(`include/srsgnb/adt/detail/byte_buffer_segment.h`), the CU-CP PDU session
resource modification routine, the CU-CP routine manager, the NGAP PDU
session resource release procedure and the gNB E2AP network adapter,
together with proofs of the specified properties.

Bytes are modelled as `Nat` values; the fixed 256-byte backing array of a
segment is modelled as a `List Nat` of length `SEGMENT_SIZE`; the two
payload pointers `payload_data_` / `payload_data_end_` are modelled as
offsets from the start of the backing array.  `srsgnb_assert` /
`srsgnb_sanity_check` guards abort the process on violation; the guarded
operations are therefore modelled as `Option`-valued functions returning
`none` exactly when the corresponding assertion fires.
-/

namespace SrsRan

/-- byte_buffer_segment::SEGMENT_SIZE. -/
def SEGMENT_SIZE : Nat := 256

/-- byte_buffer_segment::DEFAULT_HEADROOM. -/
def DEFAULT_HEADROOM : Nat := 16

/-- Segment header where metadata gets stored (byte_buffer_segment::metadata_storage).
The `next` shared pointer and the raw `tail` pointer are modelled as optional
abstract addresses. -/
structure metadata_storage where
  next : Option Nat
  tail : Option Nat
  pkt_len : Nat
  deriving DecidableEq, Repr

/-- The default-constructed metadata: next == nullptr, tail == nullptr, pkt_len == 0. -/
def metadata_storage.default : metadata_storage := ⟨none, none, 0⟩

/-- Memory segment of fixed size SEGMENT_SIZE, divided into
[ HEADROOM | PAYLOAD | TAILROOM ].  `buffer` is the fixed backing array
(length SEGMENT_SIZE), `payload_data_` and `payload_data_end_` are the
offsets of the payload start/end pointers within the backing array. -/
structure byte_buffer_segment where
  metadata_ : metadata_storage
  buffer : List Nat
  payload_data_ : Nat
  payload_data_end_ : Nat
  deriving DecidableEq, Repr

namespace byte_buffer_segment

/-- byte_buffer_segment::capacity(). -/
def capacity : Nat := SEGMENT_SIZE

/-- byte_buffer_segment::headroom(): data() - buffer.data(). -/
def headroom (s : byte_buffer_segment) : Nat := s.payload_data_

/-- byte_buffer_segment::length(): end() - begin(). -/
def length (s : byte_buffer_segment) : Nat := s.payload_data_end_ - s.payload_data_

/-- byte_buffer_segment::tailroom(): buffer.end() - end(). -/
def tailroom (s : byte_buffer_segment) : Nat := SEGMENT_SIZE - s.payload_data_end_

/-- byte_buffer_segment::tailroom_start(): headroom() + length(). -/
def tailroom_start (s : byte_buffer_segment) : Nat := s.headroom + s.length

/-- The constructor byte_buffer_segment(size_t headroom): both payload
pointers are placed `headroom` bytes into the (uninitialized, modelled as
zeroed) backing array, metadata is default-constructed. -/
def mk_segment (headroom : Nat) : byte_buffer_segment :=
  ⟨metadata_storage.default, List.replicate SEGMENT_SIZE 0, headroom, headroom⟩

/-- Well-formedness of the pointer pair: begin() <= end() <= buffer.end(),
and the backing array has its declared fixed size.  This holds for every
segment the C++ code can construct. -/
def wf (s : byte_buffer_segment) : Prop :=
  s.payload_data_ ≤ s.payload_data_end_ ∧ s.payload_data_end_ ≤ SEGMENT_SIZE ∧
    s.buffer.length = SEGMENT_SIZE

instance (s : byte_buffer_segment) : Decidable s.wf := by
  unfold wf; infer_instance

/-- The payload byte sequence of a segment: the bytes from begin() to end(). -/
def payload (s : byte_buffer_segment) : List Nat :=
  (List.range s.length).map (fun i => s.buffer.getD (s.payload_data_ + i) 0)

/-- std::copy of a byte list into the backing array starting at offset `p`. -/
def write_bytes : List Nat → Nat → List Nat → List Nat
  | buf, _, [] => buf
  | buf, p, b :: bs => write_bytes (buf.set p b) (p + 1) bs

/-- byte_buffer_segment::append(span): copies the bytes at end() and
advances payload_data_end_. -/
def append (s : byte_buffer_segment) (bytes : List Nat) : byte_buffer_segment :=
  { s with buffer := write_bytes s.buffer s.payload_data_end_ bytes,
           payload_data_end_ := s.payload_data_end_ + bytes.length }

/-- byte_buffer_segment::append(span) with its srsgnb_sanity_check guard:
fails when there is not enough tailroom. -/
def append_checked (s : byte_buffer_segment) (bytes : List Nat) :
    Option byte_buffer_segment :=
  if bytes.length ≤ s.tailroom then some (s.append bytes) else none

/-- byte_buffer_segment::append(uint8_t): buffer[tailroom_start()] = byte;
payload_data_end_++. -/
def append_byte (s : byte_buffer_segment) (b : Nat) : byte_buffer_segment :=
  { s with buffer := s.buffer.set s.tailroom_start b,
           payload_data_end_ := s.payload_data_end_ + 1 }

/-- byte_buffer_segment::append(uint8_t) with its srsgnb_assert guard
(tailroom() >= 1). -/
def append_byte_checked (s : byte_buffer_segment) (b : Nat) :
    Option byte_buffer_segment :=
  if 1 ≤ s.tailroom then some (s.append_byte b) else none

/-- byte_buffer_segment::prepend(span): payload_data_ -= bytes.size();
then copies the bytes at the (new) begin(). -/
def prepend (s : byte_buffer_segment) (bytes : List Nat) : byte_buffer_segment :=
  { s with payload_data_ := s.payload_data_ - bytes.length,
           buffer := write_bytes s.buffer (s.payload_data_ - bytes.length) bytes }

/-- byte_buffer_segment::prepend(span) with its srsgnb_assert guard
(headroom() >= bytes.size()). -/
def prepend_checked (s : byte_buffer_segment) (bytes : List Nat) :
    Option byte_buffer_segment :=
  if bytes.length ≤ s.headroom then some (s.prepend bytes) else none

/-- byte_buffer_segment::reserve_prepend(nof_bytes): payload_data_ -= nof_bytes. -/
def reserve_prepend (s : byte_buffer_segment) (nof_bytes : Nat) : byte_buffer_segment :=
  { s with payload_data_ := s.payload_data_ - nof_bytes }

/-- byte_buffer_segment::reserve_prepend with its srsgnb_assert guard
(headroom() >= nof_bytes). -/
def reserve_prepend_checked (s : byte_buffer_segment) (nof_bytes : Nat) :
    Option byte_buffer_segment :=
  if nof_bytes ≤ s.headroom then some (s.reserve_prepend nof_bytes) else none

/-- byte_buffer_segment::trim_head(nof_bytes): payload_data_ += nof_bytes. -/
def trim_head (s : byte_buffer_segment) (nof_bytes : Nat) : byte_buffer_segment :=
  { s with payload_data_ := s.payload_data_ + nof_bytes }

/-- byte_buffer_segment::trim_head with its srsgnb_assert guard
(nof_bytes <= length()). -/
def trim_head_checked (s : byte_buffer_segment) (nof_bytes : Nat) :
    Option byte_buffer_segment :=
  if nof_bytes ≤ s.length then some (s.trim_head nof_bytes) else none

/-- byte_buffer_segment::trim_tail(nof_bytes): payload_data_end_ -= nof_bytes. -/
def trim_tail (s : byte_buffer_segment) (nof_bytes : Nat) : byte_buffer_segment :=
  { s with payload_data_end_ := s.payload_data_end_ - nof_bytes }

/-- byte_buffer_segment::trim_tail with its srsgnb_assert guard
(nof_bytes <= length()). -/
def trim_tail_checked (s : byte_buffer_segment) (nof_bytes : Nat) :
    Option byte_buffer_segment :=
  if nof_bytes ≤ s.length then some (s.trim_tail nof_bytes) else none

/-- byte_buffer_segment::resize(nof_bytes): payload_data_end_ = payload_data_ + nof_bytes. -/
def resize (s : byte_buffer_segment) (nof_bytes : Nat) : byte_buffer_segment :=
  { s with payload_data_end_ := s.payload_data_ + nof_bytes }

/-- byte_buffer_segment::resize with its srsgnb_assert guard
(nof_bytes <= capacity() - headroom()). -/
def resize_checked (s : byte_buffer_segment) (nof_bytes : Nat) :
    Option byte_buffer_segment :=
  if nof_bytes ≤ capacity - s.headroom then some (s.resize nof_bytes) else none

/-- The copy constructor byte_buffer_segment(const byte_buffer_segment&):
places the payload pointers at the same offsets as in `other`
(payload_data_ = buffer.data() + other.headroom(); payload_data_end_ =
buffer.data() + other.tailroom_start()), copies the payload bytes
(std::copy(other.begin(), other.end(), begin())) into the fresh
(uninitialized, modelled as zeroed) backing array, and leaves the metadata
default-constructed: the copy is detached from any list. -/
def copy_construct (other : byte_buffer_segment) : byte_buffer_segment :=
  ⟨metadata_storage.default,
   write_bytes (List.replicate SEGMENT_SIZE 0) other.headroom other.payload,
   other.headroom, other.tailroom_start⟩

/-- The move constructor byte_buffer_segment(byte_buffer_segment&&): its body
is identical to the copy constructor's. -/
def move_construct (other : byte_buffer_segment) : byte_buffer_segment :=
  ⟨metadata_storage.default,
   write_bytes (List.replicate SEGMENT_SIZE 0) other.headroom other.payload,
   other.headroom, other.tailroom_start⟩

/-- Copy assignment operator=(const byte_buffer_segment&): guarded by a
self-assignment check (this != &other); otherwise repositions the payload
pointers, copies the payload bytes into this segment's backing array, and
does NOT touch this segment's metadata. -/
def copy_assign (dst other : byte_buffer_segment) : byte_buffer_segment :=
  if dst = other then dst
  else
    { dst with buffer := write_bytes dst.buffer other.headroom other.payload,
               payload_data_ := other.headroom,
               payload_data_end_ := other.tailroom_start }

/-- Move assignment operator=(byte_buffer_segment&&): same as copy assignment
but without the self-assignment guard; this segment's metadata is not touched. -/
def move_assign (dst other : byte_buffer_segment) : byte_buffer_segment :=
  { dst with buffer := write_bytes dst.buffer other.headroom other.payload,
             payload_data_ := other.headroom,
             payload_data_end_ := other.tailroom_start }

end byte_buffer_segment

/-- The mutating operations of byte_buffer_segment named by claim C1, with
their operands. -/
inductive seg_op where
  | append (bytes : List Nat)
  | append_byte (b : Nat)
  | prepend (bytes : List Nat)
  | reserve_prepend (n : Nat)
  | trim_head (n : Nat)
  | trim_tail (n : Nat)
  | resize (n : Nat)
  deriving DecidableEq, Repr

/-- Applying a mutating operation, with its assertion guard: `none` when the
operation's srsgnb_assert/srsgnb_sanity_check fires. -/
def seg_op.apply : seg_op → byte_buffer_segment → Option byte_buffer_segment
  | .append bytes, s => s.append_checked bytes
  | .append_byte b, s => s.append_byte_checked b
  | .prepend bytes, s => s.prepend_checked bytes
  | .reserve_prepend n, s => s.reserve_prepend_checked n
  | .trim_head n, s => s.trim_head_checked n
  | .trim_tail n, s => s.trim_tail_checked n
  | .resize n, s => s.resize_checked n

/-!
The intrusive singly linked list of segments (chained through
metadata().next in the C++ code) is modelled as a Lean `List` of segments:
a pointer to a segment of a list is represented by the suffix of the list
that starts at that segment, and the null pointer by `[]`.
-/

/-- The concatenation of the payloads of a segment list, in order: the
logical byte sequence of the buffer. -/
def flatten : List byte_buffer_segment → List Nat
  | [] => []
  | s :: rest => s.payload ++ flatten rest

/-- A byte iterator over a linked list of byte_buffer_segments
(detail::byte_buffer_iterator_impl): a current segment pointer (modelled
as the suffix of the segment list it points into, `[]` for nullptr) plus
an intra-segment offset. -/
structure byte_buffer_iterator_impl where
  current_segment : List byte_buffer_segment
  offset : Nat
  deriving DecidableEq, Repr

namespace byte_buffer_iterator_impl

/-- Iterator dereference operator*: *(current_segment->data() + offset).
Dereferencing a null iterator is undefined behaviour in the C++ code;
it is modelled as the byte 0. -/
def deref (it : byte_buffer_iterator_impl) : Nat :=
  match it.current_segment with
  | [] => 0
  | s :: _ => s.buffer.getD (s.payload_data_ + it.offset) 0

/-- Iterator pre-increment operator++: offset++; if the offset reaches the
current segment's payload length, move to the next segment with offset 0.
Incrementing a null iterator is undefined behaviour in the C++ code
(nullptr dereference); it is modelled as a plain offset increment. -/
def inc (it : byte_buffer_iterator_impl) : byte_buffer_iterator_impl :=
  match it.current_segment with
  | [] => ⟨[], it.offset + 1⟩
  | s :: rest =>
    if s.length ≤ it.offset + 1 then ⟨rest, 0⟩ else ⟨s :: rest, it.offset + 1⟩

/-- Reading n bytes with the byte iterator: dereference, increment, repeat. -/
def read_bytes : Nat → byte_buffer_iterator_impl → List Nat
  | 0, _ => []
  | n + 1, it => it.deref :: read_bytes n it.inc

/-- The while loop of operator+=: while current_segment != nullptr and
offset >= current_segment->length(), subtract the segment length from the
offset and move to the next segment. -/
def advance_loop : List byte_buffer_segment → Nat → byte_buffer_iterator_impl
  | [], off => ⟨[], off⟩
  | s :: rest, off =>
    if s.length ≤ off then advance_loop rest (off - s.length) else ⟨s :: rest, off⟩

/-- Iterator operator+=(n): offset += n, then the skip-ahead while loop. -/
def add (it : byte_buffer_iterator_impl) (n : Nat) : byte_buffer_iterator_impl :=
  advance_loop it.current_segment (it.offset + n)

/-- The segment walk of operator-: sum the payload lengths of the segments
from `segs` (the subtrahend iterator's segment) up to, and excluding,
`target` (the minuend iterator's segment), following next pointers.
Pointer equality of segments is modelled as equality of list suffixes,
which coincides with positional identity whenever `target` is a suffix of
`segs`.  The C++ loop runs off the list (undefined behaviour) if `target`
is not reachable; the model stops at the end of the list. -/
def sum_walk : List byte_buffer_segment → List byte_buffer_segment → Nat
  | [], _ => 0
  | s :: rest, target =>
    if s :: rest = target then 0 else s.length + sum_walk rest target

/-- Iterator difference operator-(other): walk from other's segment to this
iterator's segment summing payload lengths, then add the offset difference. -/
def sub (it other : byte_buffer_iterator_impl) : Int :=
  (sum_walk other.current_segment it.current_segment : Int)
    + (it.offset : Int) - (other.offset : Int)

end byte_buffer_iterator_impl

/-- Modelled from the spec: the byte_buffer append path for a single byte.
The byte_buffer class itself is not among the sources, only its segment
building block; per the spec, "append (writes into tailroom, allocating a
new segment when the current tail is full)" with fixed construction-time
constants (256-byte segments, 16-byte default headroom).  Appending a byte
writes into the tail segment's tailroom via byte_buffer_segment::append,
allocating a fresh default-headroom segment when the list is empty or the
tail segment is full. -/
def buffer_push_byte : List byte_buffer_segment → Nat → List byte_buffer_segment
  | [], b => [(byte_buffer_segment.mk_segment DEFAULT_HEADROOM).append_byte b]
  | [s], b =>
    if s.tailroom = 0 then
      [s, (byte_buffer_segment.mk_segment DEFAULT_HEADROOM).append_byte b]
    else [s.append_byte b]
  | s :: s2 :: rest, b => s :: buffer_push_byte (s2 :: rest) b

/-- Modelled from the spec: appending a byte sequence to a buffer, filling
the current tail segment's tailroom and continuing in freshly allocated
segments (byte_buffer::append). -/
def buffer_append (segs : List byte_buffer_segment) : List Nat → List byte_buffer_segment
  | [] => segs
  | b :: bs => buffer_append (buffer_push_byte segs b) bs

/-- A segment as produced by the buffer append path: well-formed and with a
non-empty payload (a segment is only allocated to receive at least one byte). -/
def good_seg (s : byte_buffer_segment) : Prop := s.wf ∧ 0 < s.length

instance (s : byte_buffer_segment) : Decidable (good_seg s) := by
  unfold good_seg; infer_instance

/-- A segment list as produced by the buffer append path. -/
def good_list (segs : List byte_buffer_segment) : Prop := ∀ s ∈ segs, good_seg s

instance (segs : List byte_buffer_segment) : Decidable (good_list segs) := by
  unfold good_list; infer_instance

/-- The byte sequence remaining in the buffer from an iterator's position on. -/
def flatten_from (it : byte_buffer_iterator_impl) : List Nat :=
  match it.current_segment with
  | [] => []
  | s :: rest => s.payload.drop it.offset ++ flatten rest

/-!
CU-CP PDU session resource modification routine
(lib/cu_cp/routines/pdu_session_resource_modification_routine.cpp).
PDU session ids are modelled as `Nat`; each pdu_session_res_modify_item is
identified by its pdu_session_id (the only field the modelled control flow
reads).  The routine body of this source version performs the two initial
sanity checks and returns; it never reaches a peer exchange, so the set of
peer notifier invocations is recorded as an (always empty) call trace.
-/

/-- The request message: cu_cp_pdu_session_resource_modify_request, with its
pdu_session_res_modify_items represented by their pdu_session_id keys. -/
structure cu_cp_pdu_session_resource_modify_request where
  ue_index : Nat
  pdu_session_res_modify_items : List Nat
  deriving DecidableEq, Repr

/-- cu_cp_pdu_session_resource_failed_to_modify_item: the routine only sets
its pdu_session_id. -/
structure cu_cp_pdu_session_resource_failed_to_modify_item where
  pdu_session_id : Nat
  deriving DecidableEq, Repr

/-- The response message (the part of
cu_cp_pdu_session_resource_modify_response the routine writes). -/
structure cu_cp_pdu_session_resource_modify_response where
  pdu_session_res_failed_to_modify_list :
    List cu_cp_pdu_session_resource_failed_to_modify_item
  deriving DecidableEq, Repr

/-- The peer notifier interfaces the routine holds references to. -/
inductive cu_cp_peer_call where
  | e1ap_ctrl_notifier
  | f1ap_ue_ctxt_notifier
  deriving DecidableEq, Repr

/-- mark_all_sessions_as_failed: pushes one failed item per requested
pdu_session_res_modify_item onto the response's failed-to-modify list. -/
def mark_all_sessions_as_failed
    (response_msg : cu_cp_pdu_session_resource_modify_response)
    (modify_request : cu_cp_pdu_session_resource_modify_request) :
    cu_cp_pdu_session_resource_modify_response :=
  ⟨response_msg.pdu_session_res_failed_to_modify_list ++
    modify_request.pdu_session_res_modify_items.map
      (fun id => ⟨id⟩)⟩

/-- generate_pdu_session_resource_modify_response(success): on success the
routine applies the UP configuration update and returns response_msg as is;
on failure it marks all requested sessions as failed. -/
def generate_pdu_session_resource_modify_response (success : Bool)
    (response_msg : cu_cp_pdu_session_resource_modify_response)
    (modify_request : cu_cp_pdu_session_resource_modify_request) :
    cu_cp_pdu_session_resource_modify_response :=
  if success then response_msg
  else mark_all_sessions_as_failed response_msg modify_request

/-- The for loop over pdu_session_res_modify_items: early-returns failure at
the first id unknown to the UP resource manager. -/
def check_sessions_exist (has_pdu_session : Nat → Bool) : List Nat → Bool
  | [] => true
  | id :: rest =>
    if has_pdu_session id then check_sessions_exist has_pdu_session rest
    else false

/-- The observable outcome of one run of the modification routine: the
returned response, the success flag passed to
generate_pdu_session_resource_modify_response (true also applies the UP
config update), and the trace of peer notifier invocations made before
returning. -/
structure modify_routine_run where
  response : cu_cp_pdu_session_resource_modify_response
  succeeded : Bool
  peer_calls : List cu_cp_peer_call
  deriving DecidableEq, Repr

/-- pdu_session_resource_modification_routine::operator(): if the request
has no modify items, early-return a failure response; if some requested
PDU session id is unknown to the UP resource manager
(rrc_ue_up_resource_manager.has_pdu_session), early-return a failure
response; otherwise return a success response.  `response_msg` starts
default-constructed (empty failed list); no peer notifier is invoked on any
path in this source version. -/
def pdu_session_resource_modification_routine
    (modify_request : cu_cp_pdu_session_resource_modify_request)
    (has_pdu_session : Nat → Bool) : modify_routine_run :=
  if modify_request.pdu_session_res_modify_items.isEmpty then
    ⟨generate_pdu_session_resource_modify_response false ⟨[]⟩ modify_request,
     false, []⟩
  else if check_sessions_exist has_pdu_session
      modify_request.pdu_session_res_modify_items then
    ⟨generate_pdu_session_resource_modify_response true ⟨[]⟩ modify_request,
     true, []⟩
  else
    ⟨generate_pdu_session_resource_modify_response false ⟨[]⟩ modify_request,
     false, []⟩

/-!
CU-CP routine manager (lib/cu_cp/routine_managers/cu_cp_routine_manager.cpp).
-/

/-- Modelled from the spec: the async_task_sequencer behind the routine
manager's main_ctrl_loop.  Its implementation is not among the sources
(only its construction with capacity 128 and the call to schedule are);
per the spec it is "a separate bounded pool (capacity K, e.g. 128)" where
"scheduling beyond capacity fails with a capacity error rather than
deadlocking" and scheduling "succeeds once enough prior tasks complete".
Tasks are modelled by opaque ids; `pending` is the FIFO of admitted,
not-yet-completed tasks. -/
structure async_task_sequencer where
  capacity : Nat
  pending : List Nat
  deriving DecidableEq, Repr

namespace async_task_sequencer

/-- Modelled from the spec: scheduling a task onto the bounded pool.
Returns whether admission succeeded together with the new pool state;
a full pool rejects the task and is left unchanged. -/
def schedule (loop : async_task_sequencer) (t : Nat) :
    Bool × async_task_sequencer :=
  if loop.pending.length < loop.capacity then
    (true, ⟨loop.capacity, loop.pending ++ [t]⟩)
  else (false, loop)

/-- Modelled from the spec: completion of the oldest admitted task frees
its pool slot. -/
def complete_front (loop : async_task_sequencer) : async_task_sequencer :=
  ⟨loop.capacity, loop.pending.tail⟩

end async_task_sequencer

/-- cu_cp_routine_manager: holds the main control loop, constructed as
main_ctrl_loop(128). -/
structure cu_cp_routine_manager where
  main_ctrl_loop : async_task_sequencer
  deriving DecidableEq, Repr

/-- The cu_cp_routine_manager constructor: main_ctrl_loop(128), initially
with no pending task. -/
def mk_cu_cp_routine_manager : cu_cp_routine_manager := ⟨⟨128, []⟩⟩

/-- cu_cp_routine_manager::schedule_async_task: returns
main_ctrl_loop.schedule(std::move(task)). -/
def cu_cp_routine_manager.schedule_async_task (m : cu_cp_routine_manager)
    (t : Nat) : Bool × cu_cp_routine_manager :=
  let r := m.main_ctrl_loop.schedule t
  (r.1, ⟨r.2⟩)

/-!
NGAP PDU session resource release procedure
(lib/ngap/procedures/ngap_pdu_session_resource_release_procedure.cpp).
The coroutine body is straight-line: it awaits the DU processor control
notifier's response to the release command, then builds and (if the ASN.1
fill succeeds) sends the release response to the AMF notifier.  A run is
modelled as the ordered trace of its externally observable events.
-/

/-- The externally observable events of one run of the release procedure. -/
inductive ngap_release_event where
  /-- du_processor_ctrl_notifier.on_new_pdu_session_resource_release_command
  is invoked (the awaited request is issued). -/
  | du_release_command_sent
  /-- The CORO_AWAIT_VALUE on the DU processor control notifier completes:
  the response is delivered and the coroutine resumes. -/
  | du_response_received
  /-- amf_notifier.on_new_message is invoked with the release response. -/
  | amf_response_sent
  deriving DecidableEq, Repr

/-- send_pdu_session_resource_release_response(): fills the ASN.1 release
response from the received response; on fill failure it logs a warning and
returns without sending, otherwise it hands the message to the AMF notifier
(on_new_message).  `fill_ok` is the result of
fill_asn1_pdu_session_resource_release_response (a helper not among the
sources). -/
def send_pdu_session_resource_release_response (fill_ok : Bool) :
    List ngap_release_event :=
  if fill_ok then [ngap_release_event.amf_response_sent] else []

/-- ngap_pdu_session_resource_release_procedure::operator(): awaits the DU
processor control notifier's response to the release command, then runs
send_pdu_session_resource_release_response. -/
def ngap_pdu_session_resource_release_procedure (fill_ok : Bool) :
    List ngap_release_event :=
  [ngap_release_event.du_release_command_sent,
   ngap_release_event.du_response_received] ++
    send_pdu_session_resource_release_response fill_ok

/-!
E2AP network adapter (apps/gnb/adapters/e2ap_adapter.h).  The handler
pointers held by the adapter are modelled as optional abstract handler
ids; report_fatal_error_if_not aborts the process with the given
diagnostic when the checked pointer is null.
-/

/-- The outcome of invoking one of the adapter's delivery methods. -/
inductive adapter_outcome where
  /-- report_fatal_error_if_not fired: the process aborts with a diagnostic. -/
  | fatal_abort (diagnostic : String)
  /-- The message/event was forwarded to the wired dependency. -/
  | delivered (handler : Nat)
  deriving DecidableEq, Repr

/-- e2ap_network_adapter: the dependency pointers relevant to the inbound
delivery paths.  Both are nullptr until connect_e2ap is called. -/
structure e2ap_network_adapter where
  e2ap_msg_handler : Option Nat
  event_handler : Option Nat
  deriving DecidableEq, Repr

/-- The e2ap_network_adapter constructor: e2ap_msg_handler and event_handler
start as nullptr. -/
def mk_e2ap_network_adapter : e2ap_network_adapter := ⟨none, none⟩

/-- e2ap_network_adapter::connect_e2ap: wires the E2AP message handler and
the E2 event handler. -/
def e2ap_network_adapter.connect_e2ap (a : e2ap_network_adapter)
    (e2ap_msg_handler event_handler : Nat) : e2ap_network_adapter :=
  { a with e2ap_msg_handler := some e2ap_msg_handler,
           event_handler := some event_handler }

/-- e2ap_network_adapter::handle_message:
report_fatal_error_if_not(e2ap_msg_handler, "E2AP handler not set."), then
forwards the message to e2ap_msg_handler->handle_message. -/
def e2ap_network_adapter.handle_message (a : e2ap_network_adapter) :
    adapter_outcome :=
  match a.e2ap_msg_handler with
  | none => adapter_outcome.fatal_abort "E2AP handler not set."
  | some h => adapter_outcome.delivered h

/-- e2ap_network_adapter::on_connection_loss:
report_fatal_error_if_not(event_handler, "E2AP handler not set."), then
forwards to event_handler->handle_connection_loss. -/
def e2ap_network_adapter.on_connection_loss (a : e2ap_network_adapter) :
    adapter_outcome :=
  match a.event_handler with
  | none => adapter_outcome.fatal_abort "E2AP handler not set."
  | some h => adapter_outcome.delivered h

/-!
Theorems.
-/

/-- Writing bytes into the backing array preserves its length. -/
theorem write_bytes_length (bs : List Nat) : ∀ (buf : List Nat) (p : Nat),
    (byte_buffer_segment.write_bytes buf p bs).length = buf.length := by
  induction bs with
  | nil => intro buf p; rfl
  | cons b bs ih =>
    intro buf p
    simp [byte_buffer_segment.write_bytes, ih]

/-- Reading back the cell just written. -/
theorem getD_set_self (l : List Nat) (i a : Nat) (h : i < l.length) :
    (l.set i a).getD i 0 = a := by
  simp [List.getD_eq_getElem?_getD, List.getElem?_set_self', h,
    List.getElem?_eq_getElem]

/-- Writing one cell leaves the other cells unchanged. -/
theorem getD_set_ne (l : List Nat) (i j a : Nat) (h : i ≠ j) :
    (l.set i a).getD j 0 = l.getD j 0 := by
  simp [List.getD_eq_getElem?_getD, List.getElem?_set_ne h]

/-- Cell contents of the backing array after a bulk write: the written
window holds the new bytes, everything else is unchanged. -/
theorem write_bytes_getD (bs : List Nat) : ∀ (buf : List Nat) (p q : Nat),
    p + bs.length ≤ buf.length →
    (byte_buffer_segment.write_bytes buf p bs).getD q 0 =
      if p ≤ q ∧ q < p + bs.length then bs.getD (q - p) 0
      else buf.getD q 0 := by
  induction bs with
  | nil =>
    intro buf p q hle
    simp only [byte_buffer_segment.write_bytes, List.length_nil]
    rw [if_neg (by omega)]
  | cons b bs ih =>
    intro buf p q hle
    simp only [List.length_cons] at hle
    simp only [byte_buffer_segment.write_bytes]
    rw [ih (buf.set p b) (p + 1) q (by simp only [List.length_set]; omega)]
    simp only [List.length_cons]
    by_cases hq : q = p
    · subst hq
      rw [if_neg (by omega), if_pos (by omega)]
      simp only [Nat.sub_self, List.getD_cons_zero]
      exact getD_set_self buf q b (by omega)
    · rw [getD_set_ne buf p q b (fun hc => hq hc.symm)]
      by_cases hin : p + 1 ≤ q ∧ q < p + 1 + bs.length
      · rw [if_pos hin, if_pos (by omega)]
        obtain ⟨hq1, hq2⟩ := hin
        have hsub : q - p = (q - (p + 1)) + 1 := by omega
        rw [hsub, List.getD_cons_succ]
      · rw [if_neg hin, if_neg (by omega)]

/-- Arithmetic form of segment well-formedness. -/
theorem wf_arith (s : byte_buffer_segment) :
    s.wf ↔ s.payload_data_ ≤ s.payload_data_end_ ∧
      s.payload_data_end_ ≤ 256 ∧ s.buffer.length = 256 :=
  Iff.rfl

/-- Every well-formed segment satisfies the headroom/payload/tailroom
partition equation. -/
theorem wf_partition (s : byte_buffer_segment) (h : s.wf) :
    s.headroom + s.length + s.tailroom = byte_buffer_segment.capacity := by
  rw [wf_arith] at h
  unfold byte_buffer_segment.headroom byte_buffer_segment.length
    byte_buffer_segment.tailroom byte_buffer_segment.capacity SEGMENT_SIZE
  omega

/-- Each guarded mutating operation preserves well-formedness. -/
theorem seg_op_preserves_wf (op : seg_op) (s snew : byte_buffer_segment)
    (hwf : s.wf) (happ : op.apply s = some snew) : snew.wf := by
  rw [wf_arith] at hwf
  obtain ⟨h1, h2, h3⟩ := hwf
  cases op with
  | append bytes =>
    simp only [seg_op.apply, byte_buffer_segment.append_checked] at happ
    split at happ
    case isTrue hg =>
      injection happ with happ
      subst happ
      unfold byte_buffer_segment.tailroom SEGMENT_SIZE at hg
      rw [wf_arith]
      refine ⟨?_, ?_, ?_⟩ <;>
        simp only [byte_buffer_segment.append, write_bytes_length] <;> omega
    case isFalse => exact absurd happ (by simp)
  | append_byte b =>
    simp only [seg_op.apply, byte_buffer_segment.append_byte_checked] at happ
    split at happ
    case isTrue hg =>
      injection happ with happ
      subst happ
      unfold byte_buffer_segment.tailroom SEGMENT_SIZE at hg
      rw [wf_arith]
      refine ⟨?_, ?_, ?_⟩ <;>
        simp only [byte_buffer_segment.append_byte, List.length_set] <;> omega
    case isFalse => exact absurd happ (by simp)
  | prepend bytes =>
    simp only [seg_op.apply, byte_buffer_segment.prepend_checked] at happ
    split at happ
    case isTrue hg =>
      injection happ with happ
      subst happ
      unfold byte_buffer_segment.headroom at hg
      rw [wf_arith]
      refine ⟨?_, ?_, ?_⟩ <;>
        simp only [byte_buffer_segment.prepend, write_bytes_length] <;> omega
    case isFalse => exact absurd happ (by simp)
  | reserve_prepend n =>
    simp only [seg_op.apply, byte_buffer_segment.reserve_prepend_checked] at happ
    split at happ
    case isTrue hg =>
      injection happ with happ
      subst happ
      unfold byte_buffer_segment.headroom at hg
      rw [wf_arith]
      refine ⟨?_, ?_, ?_⟩ <;>
        simp only [byte_buffer_segment.reserve_prepend] <;> omega
    case isFalse => exact absurd happ (by simp)
  | trim_head n =>
    simp only [seg_op.apply, byte_buffer_segment.trim_head_checked] at happ
    split at happ
    case isTrue hg =>
      injection happ with happ
      subst happ
      unfold byte_buffer_segment.length at hg
      rw [wf_arith]
      refine ⟨?_, ?_, ?_⟩ <;>
        simp only [byte_buffer_segment.trim_head] <;> omega
    case isFalse => exact absurd happ (by simp)
  | trim_tail n =>
    simp only [seg_op.apply, byte_buffer_segment.trim_tail_checked] at happ
    split at happ
    case isTrue hg =>
      injection happ with happ
      subst happ
      unfold byte_buffer_segment.length at hg
      rw [wf_arith]
      refine ⟨?_, ?_, ?_⟩ <;>
        simp only [byte_buffer_segment.trim_tail] <;> omega
    case isFalse => exact absurd happ (by simp)
  | resize n =>
    simp only [seg_op.apply, byte_buffer_segment.resize_checked] at happ
    split at happ
    case isTrue hg =>
      injection happ with happ
      subst happ
      unfold byte_buffer_segment.capacity byte_buffer_segment.headroom
        SEGMENT_SIZE at hg
      rw [wf_arith]
      refine ⟨?_, ?_, ?_⟩ <;>
        simp only [byte_buffer_segment.resize] <;> omega
    case isFalse => exact absurd happ (by simp)

/-- Claim C1: for every byte_buffer_segment, headroom() + length() +
tailroom() == capacity() (with capacity() == 256) holds after construction
(for any in-range construction headroom) and is preserved by every guarded
mutating operation (append, append of a single byte, prepend,
reserve_prepend, trim_head, trim_tail, resize); length() is a natural
number, hence never negative. -/
theorem C1_partition_invariant :
    byte_buffer_segment.capacity = 256 ∧
    (∀ h : Nat, h ≤ SEGMENT_SIZE →
      (byte_buffer_segment.mk_segment h).wf ∧
      (byte_buffer_segment.mk_segment h).headroom +
        (byte_buffer_segment.mk_segment h).length +
        (byte_buffer_segment.mk_segment h).tailroom
        = byte_buffer_segment.capacity) ∧
    ∀ (op : seg_op) (s snew : byte_buffer_segment), s.wf →
      op.apply s = some snew →
      snew.wf ∧
      snew.headroom + snew.length + snew.tailroom
        = byte_buffer_segment.capacity := by
  refine ⟨rfl, fun h hle => ?_, fun op s snew hwf happ => ?_⟩
  · have hwf : (byte_buffer_segment.mk_segment h).wf := by
      rw [wf_arith]
      unfold SEGMENT_SIZE at hle
      refine ⟨le_refl _, hle, ?_⟩
      simp only [byte_buffer_segment.mk_segment, List.length_replicate,
        SEGMENT_SIZE]
    exact ⟨hwf, wf_partition _ hwf⟩
  · have hwf2 := seg_op_preserves_wf op s snew hwf happ
    exact ⟨hwf2, wf_partition _ hwf2⟩

/-- The payload has length() bytes. -/
theorem payload_length (s : byte_buffer_segment) :
    s.payload.length = s.length := by
  simp [byte_buffer_segment.payload]

/-- Indexing the payload reads the backing array at begin() + i. -/
theorem payload_getElem (s : byte_buffer_segment) (i : Nat)
    (h : i < s.payload.length) :
    s.payload[i] = s.buffer.getD (s.payload_data_ + i) 0 := by
  simp [byte_buffer_segment.payload]

/-- Claim C5: prepend requires headroom() >= len(bytes) and fails (the
srsgnb_assert guard fires) when the headroom is insufficient; under the
precondition, the new payload is `bytes` followed by the previous payload,
headroom() decreases by len(bytes) and length() increases by len(bytes). -/
theorem C5_prepend_semantics (s : byte_buffer_segment) (bytes : List Nat)
    (hwf : s.wf) :
    (s.headroom < bytes.length → s.prepend_checked bytes = none) ∧
    (bytes.length ≤ s.headroom →
      s.prepend_checked bytes = some (s.prepend bytes) ∧
      (s.prepend bytes).payload = bytes ++ s.payload ∧
      (s.prepend bytes).headroom = s.headroom - bytes.length ∧
      (s.prepend bytes).length = s.length + bytes.length) := by
  rw [wf_arith] at hwf
  obtain ⟨h1, h2, h3⟩ := hwf
  constructor
  · intro hlt
    unfold byte_buffer_segment.prepend_checked
    rw [if_neg (by omega)]
  · intro hge
    unfold byte_buffer_segment.headroom at hge
    have hlen : (s.prepend bytes).length = s.length + bytes.length := by
      unfold byte_buffer_segment.length byte_buffer_segment.prepend
      simp only
      omega
    refine ⟨?_, ?_, ?_, hlen⟩
    · unfold byte_buffer_segment.prepend_checked byte_buffer_segment.headroom
      rw [if_pos hge]
    · apply List.ext_getElem
      · rw [payload_length, hlen, List.length_append, payload_length]
        omega
      · intro i hi1 hi2
        rw [payload_getElem _ _ hi1]
        rw [payload_length, hlen] at hi1
        unfold byte_buffer_segment.length at hi1
        unfold byte_buffer_segment.prepend
        simp only
        rw [write_bytes_getD bytes s.buffer (s.payload_data_ - bytes.length)
          (s.payload_data_ - bytes.length + i) (by omega)]
        by_cases hcase : i < bytes.length
        · rw [if_pos (by omega)]
          rw [List.getElem_append_left (by omega)]
          rw [Nat.add_sub_cancel_left, List.getD_eq_getElem bytes 0 hcase]
        · rw [if_neg (by omega)]
          rw [List.getElem_append_right (by omega)]
          have harg : s.payload_data_ - bytes.length + i
              = s.payload_data_ + (i - bytes.length) := by omega
          rw [harg]
          rw [payload_getElem s (i - bytes.length)
            (by rw [payload_length]
                unfold byte_buffer_segment.length
                omega)]
    · rfl

/-- Claim C5 witness: a fresh default-headroom segment holding [1, 2] admits
a two-byte prepend, which places the new bytes before the payload, costs two
bytes of headroom and grows the length by two. -/
theorem C5_prepend_semantics_witness :
    byte_buffer_segment.prepend_checked
        ((byte_buffer_segment.mk_segment 16).append [1, 2]) [7, 8]
      = some (((byte_buffer_segment.mk_segment 16).append [1, 2]).prepend
          [7, 8]) ∧
    (((byte_buffer_segment.mk_segment 16).append [1, 2]).prepend
        [7, 8]).payload
      = [7, 8] ++ ((byte_buffer_segment.mk_segment 16).append [1, 2]).payload ∧
    (((byte_buffer_segment.mk_segment 16).append [1, 2]).prepend
        [7, 8]).headroom
      = ((byte_buffer_segment.mk_segment 16).append [1, 2]).headroom
          - [7, 8].length ∧
    (((byte_buffer_segment.mk_segment 16).append [1, 2]).prepend
        [7, 8]).length
      = ((byte_buffer_segment.mk_segment 16).append [1, 2]).length
          + [7, 8].length := by
  have hwf : ((byte_buffer_segment.mk_segment 16).append [1, 2]).wf := by
    rw [wf_arith]
    refine ⟨?_, ?_, ?_⟩
    · show (16 : Nat) ≤ 16 + 2
      omega
    · show (16 : Nat) + 2 ≤ 256
      omega
    · show (byte_buffer_segment.write_bytes
          (List.replicate SEGMENT_SIZE 0) 16 [1, 2]).length = 256
      rw [write_bytes_length]
      simp only [List.length_replicate, SEGMENT_SIZE]
  have hge : [7, 8].length
      ≤ ((byte_buffer_segment.mk_segment 16).append [1, 2]).headroom := by
    show (2 : Nat) ≤ 16
    omega
  exact (C5_prepend_semantics ((byte_buffer_segment.mk_segment 16).append
    [1, 2]) [7, 8] hwf).2 hge

/-- The payload of a segment whose backing array was filled by copying
another segment's payload at that segment's headroom offset: this is the
shared tail of the copy/move constructors and assignment operators. -/
theorem payload_after_payload_copy (m : metadata_storage) (buf : List Nat)
    (hbuf : buf.length = 256) (other : byte_buffer_segment)
    (hwf : other.wf) :
    byte_buffer_segment.payload
      ⟨m, byte_buffer_segment.write_bytes buf other.headroom other.payload,
       other.headroom, other.tailroom_start⟩ = other.payload := by
  rw [wf_arith] at hwf
  obtain ⟨h1, h2, h3⟩ := hwf
  have hts : byte_buffer_segment.tailroom_start other
      = other.payload_data_end_ := by
    unfold byte_buffer_segment.tailroom_start byte_buffer_segment.headroom
      byte_buffer_segment.length
    omega
  have hlen : byte_buffer_segment.length
      ⟨m, byte_buffer_segment.write_bytes buf other.headroom other.payload,
       other.headroom, other.tailroom_start⟩ = other.length := by
    unfold byte_buffer_segment.length byte_buffer_segment.tailroom_start
      byte_buffer_segment.headroom byte_buffer_segment.length
    simp only
    omega
  apply List.ext_getElem
  · rw [payload_length, hlen, payload_length]
  · intro i hi1 hi2
    rw [payload_getElem _ _ hi1]
    rw [payload_length, hlen] at hi1
    simp only
    rw [write_bytes_getD other.payload buf other.headroom
      (byte_buffer_segment.headroom other + i)
      (by rw [payload_length]
          unfold byte_buffer_segment.headroom byte_buffer_segment.length
          omega)]
    rw [if_pos (by
      constructor
      · omega
      · rw [payload_length]
        unfold byte_buffer_segment.length
        unfold byte_buffer_segment.length at hi1
        omega)]
    rw [Nat.add_sub_cancel_left,
      List.getD_eq_getElem other.payload 0 (by rw [payload_length]; exact hi1)]

/-- Claim C10: copy- and move-construction produce a segment with equal
payload bytes and equal headroom placement but detached default metadata
(next == nullptr, tail == nullptr, pkt_len == 0); copy and move assignment
replace only the payload placement and bytes, leaving the destination's
metadata (next, tail, pkt_len) unchanged. -/
theorem C10_copy_never_copies_metadata (other dst : byte_buffer_segment)
    (hother : other.wf) (hdst : dst.wf) :
    ((byte_buffer_segment.copy_construct other).payload = other.payload ∧
     (byte_buffer_segment.copy_construct other).headroom = other.headroom ∧
     (byte_buffer_segment.copy_construct other).metadata_ = ⟨none, none, 0⟩) ∧
    ((byte_buffer_segment.move_construct other).payload = other.payload ∧
     (byte_buffer_segment.move_construct other).headroom = other.headroom ∧
     (byte_buffer_segment.move_construct other).metadata_ = ⟨none, none, 0⟩) ∧
    ((byte_buffer_segment.copy_assign dst other).metadata_ = dst.metadata_ ∧
     (byte_buffer_segment.copy_assign dst other).payload = other.payload ∧
     (byte_buffer_segment.copy_assign dst other).headroom = other.headroom) ∧
    ((byte_buffer_segment.move_assign dst other).metadata_ = dst.metadata_ ∧
     (byte_buffer_segment.move_assign dst other).payload = other.payload ∧
     (byte_buffer_segment.move_assign dst other).headroom = other.headroom) := by
  have hother256 : (List.replicate SEGMENT_SIZE (0 : Nat)).length = 256 := by
    simp only [List.length_replicate, SEGMENT_SIZE]
  have hdst256 : dst.buffer.length = 256 := (wf_arith dst).mp hdst |>.2.2
  refine ⟨⟨?_, rfl, rfl⟩, ⟨?_, rfl, rfl⟩, ?_, ⟨rfl, ?_, rfl⟩⟩
  · exact payload_after_payload_copy metadata_storage.default _ hother256
      other hother
  · exact payload_after_payload_copy metadata_storage.default _ hother256
      other hother
  · unfold byte_buffer_segment.copy_assign
    by_cases hself : dst = other
    · rw [if_pos hself, hself]
      exact ⟨rfl, rfl, rfl⟩
    · rw [if_neg hself]
      exact ⟨rfl,
        payload_after_payload_copy dst.metadata_ dst.buffer hdst256 other hother,
        rfl⟩
  · exact payload_after_payload_copy dst.metadata_ dst.buffer hdst256 other
      hother

set_option maxRecDepth 8192 in
/-- Claim C10 witness: copying a mid-list segment (non-null next, set tail
pointer, non-zero pkt_len) detaches the copy's metadata and preserves
payload and headroom; assigning onto a segment with non-default metadata
leaves that metadata in place. -/
theorem C10_copy_never_copies_metadata_witness :
    ((byte_buffer_segment.copy_construct
        ⟨⟨some 1, some 2, 9⟩, List.replicate 256 0, 4, 6⟩).payload
      = byte_buffer_segment.payload
          ⟨⟨some 1, some 2, 9⟩, List.replicate 256 0, 4, 6⟩ ∧
     (byte_buffer_segment.copy_construct
        ⟨⟨some 1, some 2, 9⟩, List.replicate 256 0, 4, 6⟩).headroom = 4 ∧
     (byte_buffer_segment.copy_construct
        ⟨⟨some 1, some 2, 9⟩, List.replicate 256 0, 4, 6⟩).metadata_
      = ⟨none, none, 0⟩) ∧
    (byte_buffer_segment.copy_assign
        ⟨⟨some 3, some 4, 7⟩, List.replicate 256 0, 8, 8⟩
        ⟨⟨some 1, some 2, 9⟩, List.replicate 256 0, 4, 6⟩).metadata_
      = ⟨some 3, some 4, 7⟩ := by
  have hw1 : (⟨⟨some 1, some 2, 9⟩, List.replicate 256 0, 4, 6⟩ :
      byte_buffer_segment).wf := by decide
  have hw2 : (⟨⟨some 3, some 4, 7⟩, List.replicate 256 0, 8, 8⟩ :
      byte_buffer_segment).wf := by decide
  have h := C10_copy_never_copies_metadata
    ⟨⟨some 1, some 2, 9⟩, List.replicate 256 0, 4, 6⟩
    ⟨⟨some 3, some 4, 7⟩, List.replicate 256 0, 8, 8⟩ hw1 hw2
  exact ⟨⟨h.1.1, h.1.2.1, h.1.2.2⟩, h.2.2.1.1⟩

/-- Claim C1 witness: a default-headroom segment, appended, prepended and
trimmed, keeps the partition equation. -/
theorem C1_partition_invariant_witness :
    (byte_buffer_segment.mk_segment 16).wf ∧
    (byte_buffer_segment.mk_segment 16).headroom +
      (byte_buffer_segment.mk_segment 16).length +
      (byte_buffer_segment.mk_segment 16).tailroom
      = byte_buffer_segment.capacity ∧
    ∀ snew, (seg_op.append [9, 8, 7]).apply
        (byte_buffer_segment.mk_segment 16) = some snew →
      snew.wf ∧
      snew.headroom + snew.length + snew.tailroom
        = byte_buffer_segment.capacity := by
  refine ⟨(C1_partition_invariant.2.1 16 (by decide)).1,
    (C1_partition_invariant.2.1 16 (by decide)).2,
    fun snew happ => C1_partition_invariant.2.2 (seg_op.append [9, 8, 7])
      (byte_buffer_segment.mk_segment 16) snew
      (C1_partition_invariant.2.1 16 (by decide)).1 happ⟩

/-- If some requested session id is unknown, the early-return for loop
reports failure. -/
theorem check_sessions_exist_eq_false (has_pdu_session : Nat → Bool)
    (items : List Nat) (h : ∃ id ∈ items, has_pdu_session id = false) :
    check_sessions_exist has_pdu_session items = false := by
  induction items with
  | nil => simp at h
  | cons id rest ih =>
    obtain ⟨x, hx, hfalse⟩ := h
    simp only [List.mem_cons] at hx
    unfold check_sessions_exist
    rcases hx with rfl | hx
    · simp [hfalse]
    · by_cases hid : has_pdu_session id
      · simpa [hid] using ih ⟨x, hx, hfalse⟩
      · simp [hid]

/-- Claim C3: for every request to the PDU session resource modification
routine in which some requested PDU session id is not known to the UP
resource manager, the routine terminates with a failure response whose
failed-to-modify list contains exactly one entry per requested PDU session
id, in request order, and no E1AP or F1AP peer notifier method is invoked
before that termination. -/
theorem C3_unknown_session_marks_all_failed
    (modify_request : cu_cp_pdu_session_resource_modify_request)
    (has_pdu_session : Nat → Bool)
    (h : ∃ id ∈ modify_request.pdu_session_res_modify_items,
      has_pdu_session id = false) :
    (pdu_session_resource_modification_routine modify_request
        has_pdu_session).response.pdu_session_res_failed_to_modify_list.map
        cu_cp_pdu_session_resource_failed_to_modify_item.pdu_session_id
      = modify_request.pdu_session_res_modify_items ∧
    (pdu_session_resource_modification_routine modify_request
        has_pdu_session).succeeded = false ∧
    (pdu_session_resource_modification_routine modify_request
        has_pdu_session).peer_calls = [] := by
  have hne : modify_request.pdu_session_res_modify_items ≠ [] := by
    obtain ⟨x, hx, _⟩ := h
    intro hnil
    rw [hnil] at hx
    simp at hx
  have hchk := check_sessions_exist_eq_false has_pdu_session
    modify_request.pdu_session_res_modify_items h
  unfold pdu_session_resource_modification_routine
  simp only [List.isEmpty_iff, hne, if_false, hchk, Bool.false_eq_true,
    generate_pdu_session_resource_modify_response,
    mark_all_sessions_as_failed]
  simp [List.map_map, Function.comp_def]

/-- Claim C3 witness. -/
theorem C3_unknown_session_marks_all_failed_witness :
    (pdu_session_resource_modification_routine ⟨7, [1, 2, 3]⟩
        (fun id => id ≠ 2)).response.pdu_session_res_failed_to_modify_list.map
        cu_cp_pdu_session_resource_failed_to_modify_item.pdu_session_id
      = [1, 2, 3] ∧
    (pdu_session_resource_modification_routine ⟨7, [1, 2, 3]⟩
        (fun id => id ≠ 2)).succeeded = false ∧
    (pdu_session_resource_modification_routine ⟨7, [1, 2, 3]⟩
        (fun id => id ≠ 2)).peer_calls = [] :=
  C3_unknown_session_marks_all_failed ⟨7, [1, 2, 3]⟩ (fun id => id ≠ 2)
    ⟨2, by decide, by decide⟩

/-- Claim C4: for every PDU session resource modification request with an
empty list of modify items, the routine completes immediately with a
failure result and invokes no peer notifier. -/
theorem C4_empty_request_fast_path
    (modify_request : cu_cp_pdu_session_resource_modify_request)
    (has_pdu_session : Nat → Bool)
    (h : modify_request.pdu_session_res_modify_items = []) :
    (pdu_session_resource_modification_routine modify_request
        has_pdu_session).succeeded = false ∧
    (pdu_session_resource_modification_routine modify_request
        has_pdu_session).peer_calls = [] := by
  unfold pdu_session_resource_modification_routine
  simp [h]

/-- Claim C4 witness. -/
theorem C4_empty_request_fast_path_witness :
    (pdu_session_resource_modification_routine ⟨3, []⟩
        (fun _ => true)).succeeded = false ∧
    (pdu_session_resource_modification_routine ⟨3, []⟩
        (fun _ => true)).peer_calls = [] :=
  C4_empty_request_fast_path ⟨3, []⟩ (fun _ => true) rfl

/-- Claim C7: scheduling an entity-agnostic task on the routine manager's
main control loop (bounded capacity 128) reports failure (returns false,
leaving the pool unchanged) when the pool is full, succeeds while the pool
is below capacity, and succeeds again once a prior task completes. -/
theorem C7_capacity_rejection (q : List Nat) (t : Nat) :
    (128 ≤ q.length →
      ((⟨⟨128, q⟩⟩ : cu_cp_routine_manager).schedule_async_task t).1 = false ∧
      ((⟨⟨128, q⟩⟩ : cu_cp_routine_manager).schedule_async_task t).2
        = (⟨⟨128, q⟩⟩ : cu_cp_routine_manager)) ∧
    (q.length < 128 →
      ((⟨⟨128, q⟩⟩ : cu_cp_routine_manager).schedule_async_task t).1 = true) ∧
    (q.length = 128 →
      ((⟨(⟨128, q⟩ : async_task_sequencer).complete_front⟩ :
          cu_cp_routine_manager).schedule_async_task t).1 = true) := by
  refine ⟨fun hfull => ?_, fun hroom => ?_, fun hexact => ?_⟩
  · have hnot : ¬ q.length < 128 := by omega
    simp [cu_cp_routine_manager.schedule_async_task,
      async_task_sequencer.schedule, hnot]
  · simp [cu_cp_routine_manager.schedule_async_task,
      async_task_sequencer.schedule, hroom]
  · have htail : q.length - 1 < 128 := by omega
    simp [cu_cp_routine_manager.schedule_async_task,
      async_task_sequencer.schedule, async_task_sequencer.complete_front, htail]

/-- Claim C7 witness: a full pool of 128 tasks rejects a new task and leaves
the pool unchanged; after one task completes, scheduling succeeds. -/
theorem C7_capacity_rejection_witness :
    (((⟨⟨128, List.range 128⟩⟩ :
        cu_cp_routine_manager).schedule_async_task 0).1 = false ∧
      ((⟨⟨128, List.range 128⟩⟩ :
        cu_cp_routine_manager).schedule_async_task 0).2
        = (⟨⟨128, List.range 128⟩⟩ : cu_cp_routine_manager)) ∧
    ((⟨(⟨128, List.range 128⟩ : async_task_sequencer).complete_front⟩ :
        cu_cp_routine_manager).schedule_async_task 0).1 = true :=
  ⟨(C7_capacity_rejection (List.range 128) 0).1 (by simp),
   (C7_capacity_rejection (List.range 128) 0).2.2 (by simp)⟩

/-- Claim C8: in every run of the NGAP PDU session resource release
procedure, the release response is handed to the AMF notifier only after
the DU processor control notifier has delivered its response to the awaited
release command, and at most one response message is sent to the AMF per
run. -/
theorem C8_response_only_after_await (fill_ok : Bool) :
    (ngap_pdu_session_resource_release_procedure fill_ok).count
        ngap_release_event.amf_response_sent ≤ 1 ∧
    ∀ i : Fin (ngap_pdu_session_resource_release_procedure fill_ok).length,
      (ngap_pdu_session_resource_release_procedure fill_ok).get i
          = ngap_release_event.amf_response_sent →
      ∃ j : Fin (ngap_pdu_session_resource_release_procedure fill_ok).length,
        j.val < i.val ∧
        (ngap_pdu_session_resource_release_procedure fill_ok).get j
          = ngap_release_event.du_response_received := by
  cases fill_ok <;> decide

/-- Claim C8 witness. -/
theorem C8_response_only_after_await_witness :
    (ngap_pdu_session_resource_release_procedure true).count
        ngap_release_event.amf_response_sent ≤ 1 ∧
    ∀ i : Fin (ngap_pdu_session_resource_release_procedure true).length,
      (ngap_pdu_session_resource_release_procedure true).get i
          = ngap_release_event.amf_response_sent →
      ∃ j : Fin (ngap_pdu_session_resource_release_procedure true).length,
        j.val < i.val ∧
        (ngap_pdu_session_resource_release_procedure true).get j
          = ngap_release_event.du_response_received :=
  C8_response_only_after_await true

/-- Claim C9: invoking the E2AP network adapter's inbound delivery paths
before connect_e2ap wired the corresponding dependency aborts the process
with a diagnostic: handle_message aborts when the E2AP message handler is
unset, on_connection_loss aborts when the event handler is unset, and both
pointers are unset at construction (only connect_e2ap sets them). -/
theorem C9_unwired_delivery_aborts :
    (∀ a : e2ap_network_adapter,
      (a.e2ap_msg_handler = none →
        a.handle_message = adapter_outcome.fatal_abort "E2AP handler not set.") ∧
      (a.event_handler = none →
        a.on_connection_loss
          = adapter_outcome.fatal_abort "E2AP handler not set.")) ∧
    mk_e2ap_network_adapter.e2ap_msg_handler = none ∧
    mk_e2ap_network_adapter.event_handler = none ∧
    ∀ (a : e2ap_network_adapter) (mh eh : Nat),
      (a.connect_e2ap mh eh).e2ap_msg_handler = some mh ∧
      (a.connect_e2ap mh eh).event_handler = some eh := by
  refine ⟨fun a => ⟨fun hm => ?_, fun he => ?_⟩, rfl, rfl, fun a mh eh => ⟨rfl, rfl⟩⟩
  · simp [e2ap_network_adapter.handle_message, hm]
  · simp [e2ap_network_adapter.on_connection_loss, he]

/-- Claim C9 witness: the freshly constructed adapter aborts on both inbound
delivery paths. -/
theorem C9_unwired_delivery_aborts_witness :
    mk_e2ap_network_adapter.handle_message
        = adapter_outcome.fatal_abort "E2AP handler not set." ∧
    mk_e2ap_network_adapter.on_connection_loss
        = adapter_outcome.fatal_abort "E2AP handler not set." :=
  ⟨(C9_unwired_delivery_aborts.1 mk_e2ap_network_adapter).1 rfl,
   (C9_unwired_delivery_aborts.1 mk_e2ap_network_adapter).2 rfl⟩

/-- Reading the payload through getD. -/
theorem payload_getD (s : byte_buffer_segment) (i : Nat) (h : i < s.length) :
    s.payload.getD i 0 = s.buffer.getD (s.payload_data_ + i) 0 := by
  have hlt : i < s.payload.length := by rw [payload_length]; exact h
  rw [List.getD_eq_getElem _ _ hlt, payload_getElem _ _ hlt]

/-- The fresh segment of the constructor: well-formedness, empty payload and
full tailroom behind the headroom. -/
theorem mk_segment_spec (h : Nat) (hle : h ≤ SEGMENT_SIZE) :
    (byte_buffer_segment.mk_segment h).wf ∧
    (byte_buffer_segment.mk_segment h).length = 0 ∧
    (byte_buffer_segment.mk_segment h).payload = [] ∧
    (byte_buffer_segment.mk_segment h).tailroom = SEGMENT_SIZE - h := by
  refine ⟨?_, ?_, ?_, ?_⟩
  · rw [wf_arith]
    unfold SEGMENT_SIZE at hle
    exact ⟨le_refl _, hle, by
      simp only [byte_buffer_segment.mk_segment, List.length_replicate,
        SEGMENT_SIZE]⟩
  · show h - h = 0
    omega
  · have hzero : (byte_buffer_segment.mk_segment h).length = 0 := by
      show h - h = 0
      omega
    unfold byte_buffer_segment.payload
    rw [hzero]
    rfl
  · rfl

/-- byte_buffer_segment::append(uint8_t) under its guard: the payload gains
the byte at its tail, well-formedness is kept and the length grows by one. -/
theorem append_byte_spec (s : byte_buffer_segment) (b : Nat) (hwf : s.wf)
    (ht : 1 ≤ s.tailroom) :
    (s.append_byte b).wf ∧
    (s.append_byte b).length = s.length + 1 ∧
    (s.append_byte b).payload = s.payload ++ [b] := by
  rw [wf_arith] at hwf
  obtain ⟨h1, h2, h3⟩ := hwf
  unfold byte_buffer_segment.tailroom SEGMENT_SIZE at ht
  have hts : s.tailroom_start = s.payload_data_end_ := by
    unfold byte_buffer_segment.tailroom_start byte_buffer_segment.headroom
      byte_buffer_segment.length
    omega
  have hwf2 : (s.append_byte b).wf := by
    rw [wf_arith]
    refine ⟨?_, ?_, ?_⟩ <;>
      simp only [byte_buffer_segment.append_byte, List.length_set] <;> omega
  have hlen : (s.append_byte b).length = s.length + 1 := by
    unfold byte_buffer_segment.length byte_buffer_segment.append_byte
    simp only
    omega
  refine ⟨hwf2, hlen, ?_⟩
  apply List.ext_getElem
  · rw [payload_length, hlen, List.length_append, payload_length]
    rfl
  · intro i hi1 hi2
    rw [payload_getElem _ _ hi1]
    rw [payload_length, hlen] at hi1
    simp only [byte_buffer_segment.append_byte, hts]
    by_cases hcase : i < s.length
    · rw [getD_set_ne _ _ _ _ (by
        unfold byte_buffer_segment.length at hcase
        omega)]
      rw [List.getElem_append_left (by rw [payload_length]; exact hcase)]
      have hplt : i < s.payload.length := by rw [payload_length]; exact hcase
      rw [payload_getElem _ _ hplt]
    · have hieq : i = s.length := by omega
      have hidx : s.payload_data_ + i = s.payload_data_end_ := by
        unfold byte_buffer_segment.length at hieq
        omega
      rw [hidx, getD_set_self _ _ _ (by omega)]
      rw [List.getElem_append_right (by rw [payload_length]; omega)]
      simp [payload_length, hieq]

/-- Pushing one byte through the buffer append path: the logical byte
sequence gains the byte at its end, and the segment list stays good. -/
theorem buffer_push_byte_spec (L : List byte_buffer_segment) (b : Nat)
    (hg : good_list L) :
    good_list (buffer_push_byte L b) ∧
    flatten (buffer_push_byte L b) = flatten L ++ [b] := by
  have hmk := mk_segment_spec DEFAULT_HEADROOM (by
    unfold DEFAULT_HEADROOM SEGMENT_SIZE
    omega)
  have hmkt : 1 ≤ (byte_buffer_segment.mk_segment DEFAULT_HEADROOM).tailroom := by
    rw [hmk.2.2.2]
    unfold DEFAULT_HEADROOM SEGMENT_SIZE
    omega
  have hfresh := append_byte_spec (byte_buffer_segment.mk_segment
    DEFAULT_HEADROOM) b hmk.1 hmkt
  have hfresh_good : good_seg ((byte_buffer_segment.mk_segment
      DEFAULT_HEADROOM).append_byte b) := by
    refine ⟨hfresh.1, ?_⟩
    rw [hfresh.2.1]
    omega
  have hfresh_pay : ((byte_buffer_segment.mk_segment
      DEFAULT_HEADROOM).append_byte b).payload = [b] := by
    rw [hfresh.2.2, hmk.2.2.1]
    rfl
  induction L with
  | nil =>
    refine ⟨?_, ?_⟩
    · intro s hs
      simp only [buffer_push_byte, List.mem_singleton] at hs
      subst hs
      exact hfresh_good
    · simp only [buffer_push_byte, flatten, hfresh_pay]
      rfl
  | cons s rest ih =>
    have hs : good_seg s := hg s (List.mem_cons_self s rest)
    have hrest : good_list rest := fun x hx => hg x (List.mem_cons_of_mem s hx)
    cases rest with
    | nil =>
      by_cases hfull : s.tailroom = 0
      · refine ⟨?_, ?_⟩
        · intro x hx
          simp only [buffer_push_byte, hfull, if_pos rfl] at hx
          rcases List.mem_cons.mp hx with rfl | hx2
          · exact hs
          · rcases List.mem_singleton.mp hx2 with rfl
            exact hfresh_good
        · simp only [buffer_push_byte, hfull, if_pos rfl, flatten, hfresh_pay]
          simp
      · have hroom : 1 ≤ s.tailroom := by omega
        have happ := append_byte_spec s b hs.1 hroom
        refine ⟨?_, ?_⟩
        · intro x hx
          simp only [buffer_push_byte, if_neg hfull, List.mem_singleton] at hx
          subst hx
          exact ⟨happ.1, by rw [happ.2.1]; omega⟩
        · simp only [buffer_push_byte, if_neg hfull, flatten, happ.2.2]
          simp
    | cons s2 rest2 =>
      have ih2 := ih hrest
      refine ⟨?_, ?_⟩
      · intro x hx
        simp only [buffer_push_byte] at hx
        rcases List.mem_cons.mp hx with rfl | hx2
        · exact hs
        · exact ih2.1 x hx2
      · simp only [buffer_push_byte, flatten, ih2.2]
        simp

/-- Appending a byte sequence through the buffer append path: the logical
byte sequence gains the bytes at its end, and the segment list stays good. -/
theorem buffer_append_spec (bytes : List Nat) :
    ∀ L : List byte_buffer_segment, good_list L →
    good_list (buffer_append L bytes) ∧
    flatten (buffer_append L bytes) = flatten L ++ bytes := by
  induction bytes with
  | nil => intro L hg; exact ⟨hg, by simp [buffer_append]⟩
  | cons b bs ih =>
    intro L hg
    have hpush := buffer_push_byte_spec L b hg
    have hrec := ih (buffer_push_byte L b) hpush.1
    refine ⟨hrec.1, ?_⟩
    show flatten (buffer_append (buffer_push_byte L b) bs) = flatten L ++ b :: bs
    rw [hrec.2, hpush.2]
    simp

/-- flatten_from at offset 0 is the whole remaining byte sequence. -/
theorem flatten_from_zero (segs : List byte_buffer_segment) :
    flatten_from ⟨segs, 0⟩ = flatten segs := by
  cases segs with
  | nil => rfl
  | cons s rest => simp [flatten_from, flatten]

/-- Reading n bytes with the byte iterator from a valid position yields the
first n bytes of the remaining byte sequence, provided n does not run past
the end of the buffer. -/
theorem read_bytes_spec (n : Nat) :
    ∀ it : byte_buffer_iterator_impl, good_list it.current_segment →
    (it.current_segment = [] → n = 0) →
    (∀ s rest, it.current_segment = s :: rest → it.offset < s.length) →
    n ≤ (flatten_from it).length →
    byte_buffer_iterator_impl.read_bytes n it = (flatten_from it).take n := by
  induction n with
  | zero => intro it _ _ _ _; rfl
  | succ n ih =>
    intro it hg hnil hoff hle
    obtain ⟨cs, off⟩ := it
    cases cs with
    | nil => exact absurd (hnil rfl) (Nat.succ_ne_zero n)
    | cons s rest =>
      have hofflt : off < s.length := hoff s rest rfl
      have hplen : s.payload.length = s.length := payload_length s
      have hofflt2 : off < s.payload.length := by omega
      have hff : flatten_from ⟨s :: rest, off⟩
          = s.payload.drop off ++ flatten rest := rfl
      have hdropeq : s.payload.drop off
          = s.payload[off] :: s.payload.drop (off + 1) :=
        List.drop_eq_getElem_cons hofflt2
      have hderef : byte_buffer_iterator_impl.deref ⟨s :: rest, off⟩
          = s.payload[off] := by
        simp only [byte_buffer_iterator_impl.deref]
        rw [payload_getElem s off hofflt2]
      show byte_buffer_iterator_impl.deref ⟨s :: rest, off⟩ ::
          byte_buffer_iterator_impl.read_bytes n
            (byte_buffer_iterator_impl.inc ⟨s :: rest, off⟩)
        = (flatten_from ⟨s :: rest, off⟩).take (n + 1)
      rw [hff, hdropeq, List.cons_append, List.take_succ_cons, hderef]
      congr 1
      rw [hff, hdropeq] at hle
      simp only [List.cons_append, List.length_cons, List.length_append] at hle
      have hrest : good_list rest := fun x hx => hg x (List.mem_cons_of_mem s hx)
      by_cases hend : s.length ≤ off + 1
      · have hinc : byte_buffer_iterator_impl.inc ⟨s :: rest, off⟩
            = ⟨rest, 0⟩ := by
          simp [byte_buffer_iterator_impl.inc, hend]
        have hdropnil : s.payload.drop (off + 1) = [] :=
          List.drop_eq_nil_of_le (by omega)
        rw [hinc, hdropnil, List.nil_append]
        rw [hdropnil] at hle
        simp only [List.length_nil, Nat.zero_add] at hle
        rw [← flatten_from_zero rest]
        apply ih ⟨rest, 0⟩ hrest
        · intro hrnil
          have hrn : rest = [] := hrnil
          rw [hrn] at hle
          simp only [flatten, List.length_nil] at hle
          omega
        · intro s2 rest2 heq
          have heq2 : rest = s2 :: rest2 := heq
          have hs2 : good_seg s2 := hrest s2 (by
            rw [heq2]
            exact List.mem_cons_self s2 rest2)
          exact hs2.2
        · rw [flatten_from_zero rest]
          exact Nat.le_of_succ_le_succ hle
      · have hinc : byte_buffer_iterator_impl.inc ⟨s :: rest, off⟩
            = ⟨s :: rest, off + 1⟩ := by
          simp [byte_buffer_iterator_impl.inc, hend]
        rw [hinc]
        have := ih ⟨s :: rest, off + 1⟩ hg (fun h => absurd h (by simp))
          (fun s2 rest2 heq => by
            have heq2 : s :: rest = s2 :: rest2 := heq
            injection heq2 with h1 h2
            subst h1
            show off + 1 < s.length
            omega)
          (by
            show n ≤ (s.payload.drop (off + 1) ++ flatten rest).length
            simp only [List.length_append]
            omega)
        rw [this]
        rfl

/-- The iterator produced by the operator+= skip-ahead loop points into a
suffix of the segment list it started from. -/
theorem advance_loop_suffix : ∀ (L : List byte_buffer_segment) (k : Nat),
    (byte_buffer_iterator_impl.advance_loop L k).current_segment <:+ L := by
  intro L
  induction L with
  | nil => intro k; exact List.suffix_refl []
  | cons s rest ih =>
    intro k
    by_cases hcase : s.length ≤ k
    · have hadv : byte_buffer_iterator_impl.advance_loop (s :: rest) k
          = byte_buffer_iterator_impl.advance_loop rest (k - s.length) := by
        simp [byte_buffer_iterator_impl.advance_loop, hcase]
      rw [hadv]
      exact (ih (k - s.length)).trans (List.suffix_cons s rest)
    · have hadv : byte_buffer_iterator_impl.advance_loop (s :: rest) k
          = ⟨s :: rest, k⟩ := by
        simp [byte_buffer_iterator_impl.advance_loop, hcase]
      rw [hadv]

/-- Full characterization of the operator+= skip-ahead loop on a good list:
the result is a valid position whose remaining byte sequence is the input's
remaining byte sequence with the first k bytes dropped, and whose flat
position bookkeeping matches k. -/
theorem advance_loop_spec : ∀ (L : List byte_buffer_segment) (k : Nat),
    good_list L → k ≤ (flatten L).length →
    good_list (byte_buffer_iterator_impl.advance_loop L k).current_segment ∧
    ((byte_buffer_iterator_impl.advance_loop L k).current_segment = [] →
      (byte_buffer_iterator_impl.advance_loop L k).offset = 0) ∧
    (∀ s rest,
      (byte_buffer_iterator_impl.advance_loop L k).current_segment
        = s :: rest →
      (byte_buffer_iterator_impl.advance_loop L k).offset < s.length) ∧
    flatten_from (byte_buffer_iterator_impl.advance_loop L k)
      = (flatten L).drop k ∧
    (flatten
        (byte_buffer_iterator_impl.advance_loop L k).current_segment).length
        + k
      = (flatten L).length
        + (byte_buffer_iterator_impl.advance_loop L k).offset := by
  intro L
  induction L with
  | nil =>
    intro k hg hk
    have hk0 : k = 0 := by
      simp only [flatten, List.length_nil] at hk
      omega
    subst hk0
    refine ⟨hg, fun _ => rfl, ?_, rfl, rfl⟩
    intro s rest h
    have hcon : ([] : List byte_buffer_segment) = s :: rest := h
    exact absurd hcon (by simp)
  | cons s rest ih =>
    intro k hg hk
    have hrest : good_list rest := fun x hx => hg x (List.mem_cons_of_mem s hx)
    have hplen : s.payload.length = s.length := payload_length s
    have hflat : flatten (s :: rest) = s.payload ++ flatten rest := rfl
    rw [hflat, List.length_append] at hk
    by_cases hcase : s.length ≤ k
    · have hadv : byte_buffer_iterator_impl.advance_loop (s :: rest) k
          = byte_buffer_iterator_impl.advance_loop rest (k - s.length) := by
        simp [byte_buffer_iterator_impl.advance_loop, hcase]
      have hk2 : k - s.length ≤ (flatten rest).length := by omega
      obtain ⟨g1, g2, g3, g4, g5⟩ := ih (k - s.length) hrest hk2
      rw [hadv]
      refine ⟨g1, g2, g3, ?_, ?_⟩
      · have hdrop : (s.payload ++ flatten rest).drop k
            = (flatten rest).drop (k - s.payload.length) := by
          have h1 : k = s.payload.length + (k - s.payload.length) := by omega
          conv_lhs => rw [h1]
          rw [List.drop_append]
        rw [g4, hflat, hdrop, hplen]
      · rw [hflat, List.length_append]
        omega
    · have hadv : byte_buffer_iterator_impl.advance_loop (s :: rest) k
          = ⟨s :: rest, k⟩ := by
        simp [byte_buffer_iterator_impl.advance_loop, hcase]
      rw [hadv]
      refine ⟨hg, by simp, ?_, ?_, ?_⟩
      · intro s2 rest2 heq
        have heq2 : s :: rest = s2 :: rest2 := heq
        injection heq2 with h1 h2
        subst h1
        show k < s.length
        omega
      · show s.payload.drop k ++ flatten rest = (flatten (s :: rest)).drop k
        rw [hflat, List.drop_append_of_le_length (by omega)]
      · rfl

/-- Composition of the skip-ahead loop: advancing by m and then by k more
lands at flat position m + k. -/
theorem advance_loop_add : ∀ (L : List byte_buffer_segment) (m k : Nat),
    byte_buffer_iterator_impl.advance_loop
        (byte_buffer_iterator_impl.advance_loop L m).current_segment
        ((byte_buffer_iterator_impl.advance_loop L m).offset + k)
      = byte_buffer_iterator_impl.advance_loop L (m + k) := by
  intro L
  induction L with
  | nil => intro m k; rfl
  | cons s rest ih =>
    intro m k
    by_cases hcase : s.length ≤ m
    · have h1 : byte_buffer_iterator_impl.advance_loop (s :: rest) m
          = byte_buffer_iterator_impl.advance_loop rest (m - s.length) := by
        simp [byte_buffer_iterator_impl.advance_loop, hcase]
      have h2 : byte_buffer_iterator_impl.advance_loop (s :: rest) (m + k)
          = byte_buffer_iterator_impl.advance_loop rest (m + k - s.length) := by
        simp [byte_buffer_iterator_impl.advance_loop,
          show s.length ≤ m + k by omega]
      rw [h1, h2, ih (m - s.length) k,
        show m - s.length + k = m + k - s.length by omega]
    · have h1 : byte_buffer_iterator_impl.advance_loop (s :: rest) m
          = ⟨s :: rest, m⟩ := by
        simp [byte_buffer_iterator_impl.advance_loop, hcase]
      rw [h1]

/-- The segment walk of operator-: when the target segment is reachable
from the start segment, the walked payload lengths account exactly for the
flat length difference. -/
theorem sum_walk_spec (target : List byte_buffer_segment) :
    ∀ cs : List byte_buffer_segment, target <:+ cs →
    byte_buffer_iterator_impl.sum_walk cs target + (flatten target).length
      = (flatten cs).length := by
  intro cs
  induction cs with
  | nil =>
    intro hsuf
    have htn : target = [] := List.suffix_nil.mp hsuf
    subst htn
    rfl
  | cons s rest ih =>
    intro hsuf
    by_cases heq : s :: rest = target
    · simp only [byte_buffer_iterator_impl.sum_walk, if_pos heq, Nat.zero_add]
      rw [heq]
    · have hsuf2 : target <:+ rest := by
        obtain ⟨pre, hpre⟩ := hsuf
        cases pre with
        | nil =>
          rw [List.nil_append] at hpre
          exact absurd hpre.symm heq
        | cons p ps =>
          rw [List.cons_append] at hpre
          injection hpre with h1 h2
          exact ⟨ps, h2⟩
      have hih := ih hsuf2
      simp only [byte_buffer_iterator_impl.sum_walk, if_neg heq]
      show s.length + byte_buffer_iterator_impl.sum_walk rest target
          + (flatten target).length = (flatten (s :: rest)).length
      have hflat : flatten (s :: rest) = s.payload ++ flatten rest := rfl
      have hplen : s.payload.length = s.length := payload_length s
      rw [hflat, List.length_append]
      omega

/-- Claim C6: for two byte iterators over the same good segment list, with
the subtrahend at flat position m and the minuend at flat position n >= m,
the difference operator- returns exactly n - m (the number of payload bytes
between the positions, computed by walking the intervening segments), and
advancing the earlier iterator by n - m with operator+= yields the later
iterator. -/
theorem C6_iterator_distance (L : List byte_buffer_segment) (m n : Nat)
    (hg : good_list L) (hmn : m ≤ n) (hn : n ≤ (flatten L).length) :
    byte_buffer_iterator_impl.add
        (byte_buffer_iterator_impl.advance_loop L m) (n - m)
      = byte_buffer_iterator_impl.advance_loop L n ∧
    byte_buffer_iterator_impl.sub (byte_buffer_iterator_impl.advance_loop L n)
        (byte_buffer_iterator_impl.advance_loop L m)
      = (n : Int) - (m : Int) := by
  have hadd : byte_buffer_iterator_impl.add
      (byte_buffer_iterator_impl.advance_loop L m) (n - m)
      = byte_buffer_iterator_impl.advance_loop L n := by
    unfold byte_buffer_iterator_impl.add
    rw [advance_loop_add L m (n - m), show m + (n - m) = n by omega]
  refine ⟨hadd, ?_⟩
  have hsuffix :
      (byte_buffer_iterator_impl.advance_loop L n).current_segment <:+
        (byte_buffer_iterator_impl.advance_loop L m).current_segment := by
    rw [← hadd]
    exact advance_loop_suffix _ _
  obtain ⟨_, _, _, _, g5m⟩ := advance_loop_spec L m hg (le_trans hmn hn)
  obtain ⟨_, _, _, _, g5n⟩ := advance_loop_spec L n hg hn
  have hsw := sum_walk_spec
    (byte_buffer_iterator_impl.advance_loop L n).current_segment
    (byte_buffer_iterator_impl.advance_loop L m).current_segment hsuffix
  unfold byte_buffer_iterator_impl.sub
  omega

/-- Claim C6 witness: in a buffer holding the five bytes [10, 20, 30, 40, 50],
the iterators at flat positions 1 and 4 are at distance 3, and advancing the
earlier one by 3 yields the later one. -/
theorem C6_iterator_distance_witness :
    byte_buffer_iterator_impl.add
        (byte_buffer_iterator_impl.advance_loop
          (buffer_append [] [10, 20, 30, 40, 50]) 1) 3
      = byte_buffer_iterator_impl.advance_loop
          (buffer_append [] [10, 20, 30, 40, 50]) 4 ∧
    byte_buffer_iterator_impl.sub
        (byte_buffer_iterator_impl.advance_loop
          (buffer_append [] [10, 20, 30, 40, 50]) 4)
        (byte_buffer_iterator_impl.advance_loop
          (buffer_append [] [10, 20, 30, 40, 50]) 1)
      = (4 : Int) - (1 : Int) := by
  have hg : good_list (buffer_append [] [10, 20, 30, 40, 50]) :=
    (buffer_append_spec [10, 20, 30, 40, 50] [] (by decide)).1
  have hlen : (4 : Nat) ≤ (flatten (buffer_append [] [10, 20, 30, 40, 50])).length := by
    rw [(buffer_append_spec [10, 20, 30, 40, 50] [] (by decide)).2]
    simp [flatten]
  have h := C6_iterator_distance (buffer_append [] [10, 20, 30, 40, 50]) 1 4
    hg (by omega) hlen
  exact h

/-- Claim C2: appending a byte sequence B to a buffer built by the append
path and then iterating byte-by-byte from the position where B starts, for
len(B) steps, yields exactly B, for every B (hence in particular for
len(B) = 0, 1, 255, 256, 257 and 2560) and every starting buffer contents,
regardless of how many segments B spans. -/
theorem C2_append_read_round_trip (L : List byte_buffer_segment)
    (B : List Nat) (hg : good_list L) :
    byte_buffer_iterator_impl.read_bytes B.length
        (byte_buffer_iterator_impl.add ⟨buffer_append L B, 0⟩
          (flatten L).length)
      = B := by
  obtain ⟨hg2, hflat2⟩ := buffer_append_spec B L hg
  have hlen : (flatten L).length ≤ (flatten (buffer_append L B)).length := by
    rw [hflat2]
    simp
  unfold byte_buffer_iterator_impl.add
  simp only [Nat.zero_add]
  obtain ⟨g1, g2, g3, g4, g5⟩ := advance_loop_spec (buffer_append L B)
    (flatten L).length hg2 hlen
  have hff : flatten_from (byte_buffer_iterator_impl.advance_loop
      (buffer_append L B) (flatten L).length) = B := by
    rw [g4, hflat2, List.drop_left]
  rw [read_bytes_spec B.length _ g1
    (fun hcs => by
      have hBnil : B = [] := by
        rw [← hff]
        unfold flatten_from
        rw [hcs]
      rw [hBnil]
      rfl)
    g3
    (by rw [hff])]
  rw [hff, List.take_length]

/-- Claim C2 witness: the three bytes [1, 2, 3] appended to an empty buffer
read back as [1, 2, 3]. -/
theorem C2_append_read_round_trip_witness :
    byte_buffer_iterator_impl.read_bytes 3
        (byte_buffer_iterator_impl.add ⟨buffer_append [] [1, 2, 3], 0⟩
          (flatten []).length)
      = [1, 2, 3] :=
  C2_append_read_round_trip [] [1, 2, 3] (by decide)

end SrsRan
